import Mathlib

/-!
Shallow embedding of pmr, a leak-scanning CLI: it reads candidate file
paths from stdin, resolves each against a base URL, issues HTTP GET probes
under a bounded-concurrency channel, and heuristically matches the first
lines of the local file (its fingerprint) against the response body.

The embedding follows the refined source variant (the one with the
`-skip-errors` flag, the 200/404/403 status gate, the empty-fingerprint
guard and the 64 KiB scanner buffer cap).  Text (file content, HTTP
bodies, lines, error messages) is modelled as `List Char`; the effectful
calls a probe makes (urlJoin, client.Do, body read, getFileHead) are
abstracted into their `Except`-valued results, supplied per probe.
-/

namespace Pmr

/-- Text is modelled as a list of characters. -/
abbrev Str := List Char

/-- Classified outcome of one probe, read off the logging behaviour of
`request`: `Leaked` is the "This file is published" warning path,
`NotLeaked` is any `return nil` without that warning, `SkippedError` is a
transport error swallowed by `-skip-errors`. -/
inductive Outcome where
  | Leaked
  | NotLeaked
  | SkippedError
deriving DecidableEq, Repr

/-- `startsWithL body l`: `l` is a leading block of `body`. -/
def startsWithL : Str → Str → Bool
  | _, [] => true
  | [], _ :: _ => false
  | b :: bs, x :: xs => b = x && startsWithL bs xs

/-- Embeds Go `strings.Index(string(body), l) >= 0`: `l` occurs as a
contiguous substring somewhere in `body`. -/
def containsSub : Str → Str → Bool
  | [], l => l.isEmpty
  | b :: bs, l => startsWithL (b :: bs) l || containsSub bs l

/-- The `for _, l := range lines` loop closing `request`: the first
fingerprint line not contained in the body returns nil early (no leak
warning), otherwise the "This file is published" warning fires. -/
def matchLines (body : Str) : List Str → Outcome
  | [] => .Leaked
  | l :: ls => if containsSub body l then matchLines body ls else .NotLeaked

/-- `request(url, timeout, insecure, filePath, skipErrors)` with its
effects abstracted into their results, in the order the code performs
them: `urlJoin`, `client.Do` (status code on success; transport failures
as `.error`), `ioutil.ReadAll(r.Body)`, `getFileHead`.  Faithful to the
control flow: transport errors are swallowed when `skipErrors` is set,
any status outside {200, 404, 403} warns and concludes without touching
the file, an empty fingerprint against a non-empty body concludes
`NotLeaked`, and otherwise the line-containment loop decides. -/
def request (urlJoinRes : Except Str Str) (doRes : Except Str Nat)
    (bodyRes : Except Str Str) (fileHeadRes : Except Str (List Str))
    (skipErrors : Bool) : Except Str Outcome :=
  match urlJoinRes with
  | .error e => .error e
  | .ok _ =>
    match doRes with
    | .error e => if skipErrors then .ok .SkippedError else .error e
    | .ok status =>
      match bodyRes with
      | .error e => .error e
      | .ok body =>
        if status ≠ 200 ∧ status ≠ 404 ∧ status ≠ 403 then .ok .NotLeaked
        else
          match fileHeadRes with
          | .error e => .error e
          | .ok lines =>
            if lines.length = 0 ∧ 0 < body.length then .ok .NotLeaked
            else .ok (matchLines body lines)

/-- Per-probe results of the four effectful calls `request` makes. -/
structure ProbeEnv where
  urlJoinRes : Except Str Str
  doRes : Except Str Nat
  bodyRes : Except Str Str
  fileHeadRes : Except Str (List Str)

/-- One probe of the dispatcher, as run inside `eg.Go`. -/
def runProbe (env : ProbeEnv) (skipErrors : Bool) : Except Str Outcome :=
  request env.urlJoinRes env.doRes env.bodyRes env.fileHeadRes skipErrors

/-- Scanner buffer cap, `MaxScanTokenSize = 1024 * 64` in the source. -/
def MaxScanTokenSize : Nat := 1024 * 64

/-- `bufio.ScanLines` segmentation: a newline terminates a segment, a
final unterminated segment is kept, a trailing newline produces no empty
final segment. -/
def segsAux (acc : Str) : Str → List Str
  | [] => if acc = [] then [] else [acc.reverse]
  | c :: cs => if c = '\n' then acc.reverse :: segsAux [] cs else segsAux (c :: acc) cs

/-- The newline-delimited segments of a file's content, in file order. -/
def segs (content : Str) : List Str := segsAux [] content

/-- `dropCR` of `bufio.ScanLines`: strip one trailing carriage return. -/
def dropCR (s : Str) : Str :=
  match s.getLast? with
  | some c => if c = '\r' then s.dropLast else s
  | none => s

/-- The tokens `scanner.Scan` yields before stopping: scanning aborts with
`ErrTooLong` (which the code never inspects) at the first segment whose
raw length reaches the buffer cap `maxTok`. -/
def scanTokens (maxTok : Nat) (content : Str) : List Str :=
  ((segs content).takeWhile (fun s => decide (s.length < maxTok))).map dropCR

/-- The read loop of `getFileHead`: append the token, bump the counter,
break once the counter exceeds 10. -/
def headLoop (cnt : Nat) (lines : List Str) : List Str → List Str
  | [] => lines
  | t :: ts =>
    if cnt + 1 > 10 then lines ++ [t] else headLoop (cnt + 1) (lines ++ [t]) ts

/-- `getFileHead(path)`: `file` is the outcome of `os.Open` (an
unopenable file is `.error`).  `scanner.Err()` is never consulted by the
code, so a scan aborted by an over-long line still returns a nil error. -/
def getFileHead (file : Except Str Str) : Except Str (List Str) :=
  match file with
  | .error e => .error e
  | .ok content => .ok (headLoop 0 [] (scanTokens MaxScanTokenSize content))

/-- `strings.Split(input, "\n")`: components between newlines, empty
components kept (including a final one after a trailing newline). -/
def splitNlAux (acc : Str) : Str → List Str
  | [] => [acc.reverse]
  | c :: cs => if c = '\n' then acc.reverse :: splitNlAux [] cs else splitNlAux (c :: acc) cs

def splitNl (input : Str) : List Str := splitNlAux [] input

/-- The dispatch guard of the Run loop: lines with `l == "" || l == "\n"`
are skipped. -/
def keepLine (l : Str) : Bool :=
  if l = [] ∨ l = ['\n'] then false else true

/-- The lines for which the Run loop actually starts a probe. -/
def dispatched (input : Str) : List Str :=
  (splitNl input).filter keepLine

/-- Is a probe result an error (a non-nil return into the error group)? -/
def isErr : Except Str Outcome → Bool
  | .error _ => true
  | .ok _ => false

/-- Run after flag parsing, as a function of the stdin text and a
per-path oracle for the probe effects: `eg.Wait` surfaces an error iff
some probe returned one, and `logrus.Fatal` then exits with code 1;
otherwise `ExitCodeOK = 0` is returned. -/
def RunExit (envOf : Str → ProbeEnv) (skipErrors : Bool) (input : Str) : Nat :=
  if ((dispatched input).map (fun l => runProbe (envOf l) skipErrors)).any isErr = true
  then 1 else 0

/-- State of the Run dispatch loop and its workers: the input lines the
loop has not reached yet, the number of tokens currently in the buffered
channel `c`, whether the main goroutine sits between `c <- true` and
`eg.Go` (one token acquired for a probe not yet started; the main
goroutine is sequential, so this is a Bool), and the number of probes
started but not yet finished. -/
structure DispState where
  pending : List Str
  chan : Nat
  held : Bool
  inflight : Nat
deriving DecidableEq, Repr

/-- One scheduler step of the dispatcher with concurrency `N`
(`c := make(chan bool, N)`): the loop skips an empty line, the loop sends
a token into the channel (blocking unless `chan < N`), the loop hands the
line to a fresh goroutine (`eg.Go`), or a running probe finishes with
some result `r` and its deferred receive `<-c` releases the token —
unconditionally, whatever `r` is. -/
inductive DStep (N : Nat) : DispState → DispState → Prop where
  | skipLine (s : DispState) (l : Str) (rest : List Str) :
      s.pending = l :: rest → (l = [] ∨ l = ['\n']) → s.held = false →
      DStep N s ⟨rest, s.chan, false, s.inflight⟩
  | send (s : DispState) (l : Str) (rest : List Str) :
      s.pending = l :: rest → ¬(l = [] ∨ l = ['\n']) → s.held = false → s.chan < N →
      DStep N s ⟨rest, s.chan + 1, true, s.inflight⟩
  | spawn (s : DispState) :
      s.held = true →
      DStep N s ⟨s.pending, s.chan, false, s.inflight + 1⟩
  | finish (s : DispState) (r : Except Str Outcome) :
      0 < s.inflight →
      DStep N s ⟨s.pending, s.chan - 1, s.held, s.inflight - 1⟩

/-- Reflexive-transitive closure of the dispatcher steps. -/
inductive DReach (N : Nat) : DispState → DispState → Prop where
  | refl (s : DispState) : DReach N s s
  | tail {s t u : DispState} : DReach N s t → DStep N t u → DReach N s u

/-- Dispatcher state at the top of the Run loop: all input lines pending,
an empty channel, nothing started. -/
def initState (input : Str) : DispState :=
  ⟨splitNl input, 0, false, 0⟩

/-- The channel discipline: the channel never holds more than its
capacity, and every started-unfinished probe, plus the token the main
goroutine may be holding mid-iteration, is matched by a channel token. -/
def DInv (N : Nat) (s : DispState) : Prop :=
  s.chan ≤ N ∧ s.inflight + (if s.held then 1 else 0) = s.chan

lemma DInv_init (N : Nat) (input : Str) : DInv N (initState input) := by
  constructor <;> simp [initState]

lemma DInv_step {N : Nat} {s t : DispState} (h : DStep N s t) (hs : DInv N s) :
    DInv N t := by
  obtain ⟨h1, h2⟩ := hs
  cases h with
  | skipLine l rest hp hl hh =>
    refine ⟨h1, ?_⟩
    simpa [hh] using h2
  | send l rest hp hl hh hc =>
    rw [hh] at h2
    exact ⟨hc, by simp at h2 ⊢; omega⟩
  | spawn hh =>
    rw [hh] at h2
    exact ⟨h1, by simp at h2 ⊢; omega⟩
  | finish r hf =>
    refine ⟨by simp; omega, ?_⟩
    cases hh : s.held <;> rw [hh] at h2 <;> simp [hh] at h2 ⊢ <;> omega

lemma DReach_DInv {N : Nat} {s t : DispState} (h : DReach N s t) (hs : DInv N s) :
    DInv N t := by
  induction h with
  | refl => exact hs
  | tail hr hstep ih => exact DInv_step hstep ih

lemma matchLines_eq_leaked_iff (body : Str) (ls : List Str) :
    matchLines body ls = Outcome.Leaked ↔ ∀ l ∈ ls, containsSub body l = true := by
  induction ls with
  | nil => simp [matchLines]
  | cons l ls ih =>
    cases hc : containsSub body l with
    | true => simp [matchLines, hc, ih]
    | false => simp [matchLines, hc]

lemma matchLines_notleaked_of_fail (body lf : Str) (h : containsSub body lf = false) :
    ∀ pre suf : List Str, matchLines body (pre ++ lf :: suf) = Outcome.NotLeaked := by
  intro pre
  induction pre with
  | nil => intro suf; simp [matchLines, h]
  | cons p ps ih =>
    intro suf
    cases hp : containsSub body p with
    | true => simpa [matchLines, hp] using ih suf
    | false => simp [matchLines, hp]

lemma request_accepted_eval (sk : Bool) (u body : Str) (st : Nat) (fp : List Str)
    (hst : st = 200 ∨ st = 404 ∨ st = 403) :
    request (Except.ok u) (Except.ok st) (Except.ok body) (Except.ok fp) sk
      = if fp.length = 0 ∧ 0 < body.length then Except.ok Outcome.NotLeaked
        else Except.ok (matchLines body fp) := by
  rcases hst with rfl | rfl | rfl <;> rfl

/-- Claim C1: for a probe with an accepted response status (200, 404 or
403) and a non-empty fingerprint, the match evaluator classifies the probe
`Leaked` iff every fingerprint line occurs as a contiguous substring of
the response body, each line tested independently of order; moreover a
line absent from the body short-circuits: once one line fails, the
result is `NotLeaked` no matter what lines follow it, and any absent line
forces `NotLeaked`. -/
theorem request_leaked_iff_fingerprint_in_body (sk : Bool) (u body : Str)
    (st : Nat) (fp : List Str)
    (hst : st = 200 ∨ st = 404 ∨ st = 403) (hfp : fp ≠ []) :
    (request (Except.ok u) (Except.ok st) (Except.ok body) (Except.ok fp) sk
        = Except.ok Outcome.Leaked ↔ ∀ l ∈ fp, containsSub body l = true) ∧
    (∀ pre lf suf suf' : _, fp = pre ++ lf :: suf → containsSub body lf = false →
      request (Except.ok u) (Except.ok st) (Except.ok body)
          (Except.ok (pre ++ lf :: suf')) sk = Except.ok Outcome.NotLeaked) ∧
    ((∃ l ∈ fp, containsSub body l = false) →
      request (Except.ok u) (Except.ok st) (Except.ok body) (Except.ok fp) sk
        = Except.ok Outcome.NotLeaked) := by
  have hguard : ¬(fp.length = 0 ∧ 0 < body.length) := by
    rintro ⟨h0, -⟩
    exact hfp (List.length_eq_zero.mp h0)
  refine ⟨?_, ?_, ?_⟩
  · rw [request_accepted_eval sk u body st fp hst, if_neg hguard]
    simp only [Except.ok.injEq]
    exact matchLines_eq_leaked_iff body fp
  · intro pre lf suf suf' hsplit hfail
    have hguard' : ¬((pre ++ lf :: suf').length = 0 ∧ 0 < body.length) := by
      rintro ⟨h0, -⟩
      rcases List.append_eq_nil.mp (List.length_eq_zero.mp h0) with ⟨-, h⟩
      exact List.cons_ne_nil lf suf' h
    rw [request_accepted_eval sk u body st _ hst, if_neg hguard']
    exact congrArg Except.ok (matchLines_notleaked_of_fail body lf hfail pre suf')
  · rintro ⟨l, hl, hfail⟩
    obtain ⟨pre, suf, rfl⟩ := List.append_of_mem hl
    rw [request_accepted_eval sk u body st _ hst, if_neg hguard]
    exact congrArg Except.ok (matchLines_notleaked_of_fail body l hfail pre suf)

theorem request_leaked_iff_fingerprint_in_body_witness :
    request (Except.ok ['u']) (Except.ok 200) (Except.ok ['a', 'b', 'c'])
      (Except.ok [['b'], ['a']]) false = Except.ok Outcome.Leaked :=
  ((request_leaked_iff_fingerprint_in_body false ['u'] ['a', 'b', 'c'] 200
      [['b'], ['a']] (Or.inl rfl) (by decide)).1).mpr (by decide)

/-- Claim C2: a probe whose HTTP status lies outside {200, 404, 403}
(for instance 500) concludes `NotLeaked` before `getFileHead` is called:
the conclusion is the same for every possible file-read result `fh`,
including an unreadable file, so the fingerprint is never read and no
line comparison happens. -/
theorem unaccepted_status_notleaked (sk : Bool) (u body : Str) (st : Nat)
    (fh : Except Str (List Str))
    (h200 : st ≠ 200) (h404 : st ≠ 404) (h403 : st ≠ 403) :
    request (Except.ok u) (Except.ok st) (Except.ok body) fh sk
      = Except.ok Outcome.NotLeaked := by
  show (if st ≠ 200 ∧ st ≠ 404 ∧ st ≠ 403 then Except.ok Outcome.NotLeaked
        else _) = Except.ok Outcome.NotLeaked
  rw [if_pos ⟨h200, h404, h403⟩]

theorem unaccepted_status_notleaked_witness :
    request (Except.ok ['u']) (Except.ok 500) (Except.ok ['b'])
      (Except.error ['e']) false = Except.ok Outcome.NotLeaked :=
  unaccepted_status_notleaked false ['u'] ['b'] 500 (Except.error ['e'])
    (by decide) (by decide) (by decide)

/-- Claim C7: with an accepted status, an empty fingerprint and a
non-empty response body, the probe concludes `NotLeaked` on the
empty-fingerprint guard, never reaching the line-comparison loop. -/
theorem empty_fingerprint_nonempty_body_notleaked (sk : Bool) (u body : Str)
    (st : Nat) (hst : st = 200 ∨ st = 404 ∨ st = 403) (hb : body ≠ []) :
    request (Except.ok u) (Except.ok st) (Except.ok body) (Except.ok []) sk
      = Except.ok Outcome.NotLeaked := by
  rw [request_accepted_eval sk u body st [] hst, if_pos]
  exact ⟨rfl, List.length_pos.mpr hb⟩

theorem empty_fingerprint_nonempty_body_notleaked_witness :
    request (Except.ok ['u']) (Except.ok 200)
      (Except.ok ['h', 'e', 'l', 'l', 'o']) (Except.ok []) false
      = Except.ok Outcome.NotLeaked :=
  empty_fingerprint_nonempty_body_notleaked false ['u'] ['h', 'e', 'l', 'l', 'o']
    200 (Or.inl rfl) (by decide)

/-- Claim C10: with an accepted status, an empty fingerprint and an empty
body, the probe classifies the file as `Leaked` (fires the "This file is
published" warning): the guard requires a non-empty body, and the loop
over zero fingerprint lines falls through to the warning. -/
theorem empty_fingerprint_empty_body_leaked (sk : Bool) (u : Str) (st : Nat)
    (hst : st = 200 ∨ st = 404 ∨ st = 403) :
    request (Except.ok u) (Except.ok st) (Except.ok []) (Except.ok []) sk
      = Except.ok Outcome.Leaked := by
  rw [request_accepted_eval sk u [] st [] hst, if_neg]
  · rfl
  · rintro ⟨-, h⟩
    simp at h

theorem empty_fingerprint_empty_body_leaked_witness :
    request (Except.ok ['u']) (Except.ok 404) (Except.ok []) (Except.ok []) false
      = Except.ok Outcome.Leaked :=
  empty_fingerprint_empty_body_leaked false ['u'] 404 (Or.inr (Or.inl rfl))

/-- Claim C6: on every schedule of the dispatcher with concurrency `N`,
every state reachable from the initial state has at most `N` probes
in-flight: a channel token is acquired before a probe starts and released
unconditionally when it finishes, whatever its result. -/
theorem reachable_inflight_le_concurrency (N : Nat) (input : Str)
    (s : DispState) (h : DReach N (initState input) s) : s.inflight ≤ N := by
  obtain ⟨h1, h2⟩ := DReach_DInv h (DInv_init N input)
  cases hb : s.held <;> rw [hb] at h2 <;> simp at h2 <;> omega

theorem reachable_inflight_le_concurrency_witness :
    (⟨[], 1, false, 1⟩ : DispState).inflight ≤ 2 :=
  reachable_inflight_le_concurrency 2 ['a'] ⟨[], 1, false, 1⟩
    (DReach.tail (DReach.tail (DReach.refl _)
        (DStep.send _ ['a'] [] rfl (by decide) rfl (by decide)))
      (DStep.spawn _ rfl))

lemma runExit_one_of_probe_err {envOf : Str → ProbeEnv} {sk : Bool}
    {input l : Str} (hl : l ∈ dispatched input)
    (he : isErr (runProbe (envOf l) sk) = true) :
    RunExit envOf sk input = 1 := by
  unfold RunExit
  rw [if_pos]
  exact List.any_eq_true.mpr
    ⟨runProbe (envOf l) sk, List.mem_map.mpr ⟨l, hl, rfl⟩, he⟩

/-- A probe environment whose only failure is an unreadable local file:
URL resolution, transport and body read all succeed with status 200. -/
def envFileErr : ProbeEnv :=
  ⟨Except.ok ['u'], Except.ok 200, Except.ok ['b'], Except.error ['e']⟩

/-- Claim C3 counterexample: a run over the single candidate path "a"
whose probe succeeds up to an accepted 200 status but whose local file is
unreadable exits with code 1 — `eg.Wait` hands the probe's error to
`logrus.Fatal` — so the run does abort solely because that one local file
is unreadable, contrary to the claim. -/
theorem run_exits_fatal_on_unreadable_file_cex :
    RunExit (fun _ => envFileErr) false ['a'] = 1 ∧
    envFileErr.urlJoinRes = Except.ok ['u'] ∧
    envFileErr.doRes = Except.ok 200 ∧
    envFileErr.bodyRes = Except.ok ['b'] ∧
    envFileErr.fileHeadRes = Except.error ['e'] :=
  ⟨by decide, rfl, rfl, rfl, rfl⟩

/-- Claim C3 (amended): an unreadable local file on a dispatched path
with an accepted status surfaces as that probe's returned error — sibling
probes are unaffected until the loop finishes — but the error group then
reports it and the run terminates fatally with exit code 1 rather than
continuing to success. -/
theorem fileUnreadable_propagates_to_fatal_exit (envOf : Str → ProbeEnv)
    (sk : Bool) (input l e u body : Str) (st : Nat)
    (hl : l ∈ dispatched input)
    (hu : (envOf l).urlJoinRes = Except.ok u)
    (hdo : (envOf l).doRes = Except.ok st)
    (hb : (envOf l).bodyRes = Except.ok body)
    (hst : st = 200 ∨ st = 404 ∨ st = 403)
    (hfh : (envOf l).fileHeadRes = Except.error e) :
    runProbe (envOf l) sk = Except.error e ∧ RunExit envOf sk input = 1 := by
  have hp : runProbe (envOf l) sk = Except.error e := by
    unfold runProbe
    rw [hu, hdo, hb, hfh]
    rcases hst with rfl | rfl | rfl <;> rfl
  exact ⟨hp, runExit_one_of_probe_err hl (by rw [hp]; rfl)⟩

theorem fileUnreadable_propagates_to_fatal_exit_witness :
    runProbe envFileErr false = Except.error ['e'] ∧
    RunExit (fun _ => envFileErr) false ['a'] = 1 :=
  fileUnreadable_propagates_to_fatal_exit (fun _ => envFileErr) false
    ['a'] ['a'] ['e'] ['u'] ['b'] 200 (by decide) rfl rfl rfl (Or.inl rfl) rfl

/-- A probe environment whose URL resolution fails; the later stages are
well-behaved and never consulted. -/
def envUrlErr : ProbeEnv :=
  ⟨Except.error ['e'], Except.ok 200, Except.ok ['b'], Except.ok [['b']]⟩

/-- Claim C4 counterexample: a run over the single candidate path "a"
whose URL resolution fails exits with code 1 — the probe's error reaches
`logrus.Fatal` through `eg.Wait` — so an `InvalidURL` failure is fatal to
the run, contrary to the claim. -/
theorem run_exits_fatal_on_invalid_url_cex :
    RunExit (fun _ => envUrlErr) false ['a'] = 1 ∧
    envUrlErr.urlJoinRes = Except.error ['e'] :=
  ⟨by decide, rfl⟩

/-- Claim C4 (amended): a failed URL resolution on a dispatched path is
returned immediately as that probe's error — no fetch or file read is
attempted for that path, whatever their oracles hold — and the error
group then makes the run terminate fatally with exit code 1. -/
theorem invalidURL_propagates_to_fatal_exit (envOf : Str → ProbeEnv)
    (sk : Bool) (input l e : Str)
    (hl : l ∈ dispatched input)
    (hu : (envOf l).urlJoinRes = Except.error e) :
    runProbe (envOf l) sk = Except.error e ∧ RunExit envOf sk input = 1 := by
  have hp : runProbe (envOf l) sk = Except.error e := by
    unfold runProbe
    rw [hu]
    rfl
  exact ⟨hp, runExit_one_of_probe_err hl (by rw [hp]; rfl)⟩

theorem invalidURL_propagates_to_fatal_exit_witness :
    runProbe envUrlErr true = Except.error ['e'] ∧
    RunExit (fun _ => envUrlErr) true ['a'] = 1 :=
  invalidURL_propagates_to_fatal_exit (fun _ => envUrlErr) true
    ['a'] ['a'] ['e'] (by decide) rfl

lemma splitNlAux_no_nl (cs : Str) : ∀ acc : Str, '\n' ∉ acc →
    ∀ l ∈ splitNlAux acc cs, '\n' ∉ l := by
  induction cs with
  | nil =>
    intro acc hacc l hl
    simp [splitNlAux] at hl
    simpa [hl] using hacc
  | cons c cs ih =>
    intro acc hacc l hl
    by_cases hc : c = '\n'
    · rw [splitNlAux, if_pos hc] at hl
      rcases List.mem_cons.mp hl with rfl | hl'
      · simpa using hacc
      · exact ih [] (by simp) l hl'
    · rw [splitNlAux, if_neg hc] at hl
      refine ih (c :: acc) ?_ l hl
      simp only [List.mem_cons]
      rintro (h | h)
      · exact hc h.symm
      · exact hacc h

lemma splitNl_no_nl (input : Str) : ∀ l ∈ splitNl input, '\n' ∉ l :=
  splitNlAux_no_nl input [] (by simp)

/-- Claim C5 counterexample: the input consisting of one whitespace-only
line (a single space) dispatches one probe — the Run loop does not
discard whitespace-only lines, only empty ones. -/
theorem whitespace_line_dispatches_probe_cex :
    dispatched [' '] = [[' ']] ∧ (' ').isWhitespace = true ∧
    keepLine [' '] = true :=
  ⟨by decide, by decide, by decide⟩

/-- Claim C5 (amended): the Run loop splits the input on newline
boundaries and dispatches exactly one probe per non-empty line: only
empty lines are discarded (the `l == "\n"` case of the guard can never
fire after splitting on newlines, and whitespace-only lines are kept),
so the number of dispatched probes equals the number of non-empty
lines. -/
theorem dispatched_one_probe_per_nonempty_line (input : Str) :
    dispatched input = (splitNl input).filter (fun l => !l.isEmpty) ∧
    (dispatched input).length
      = ((splitNl input).filter (fun l => !l.isEmpty)).length := by
  have h : ∀ l ∈ splitNl input, keepLine l = !l.isEmpty := by
    intro l hl
    have hnl : '\n' ∉ l := splitNl_no_nl input l hl
    cases l with
    | nil => rfl
    | cons a as =>
      have h2 : a :: as ≠ ['\n'] := by
        intro hEq
        exact hnl (hEq ▸ List.mem_singleton.mpr rfl)
      simp [keepLine, h2]
  have he : dispatched input = (splitNl input).filter (fun l => !l.isEmpty) :=
    List.filter_congr h
  exact ⟨he, by rw [he]⟩

lemma headLoop_take (ts : List Str) : ∀ cnt lines, cnt ≤ 10 →
    headLoop cnt lines ts = lines ++ ts.take (11 - cnt) := by
  induction ts with
  | nil => intro cnt lines h; simp [headLoop]
  | cons t ts ih =>
    intro cnt lines h
    by_cases h10 : cnt + 1 > 10
    · have hc : cnt = 10 := by omega
      subst hc
      rw [headLoop, if_pos h10]
      simp
    · rw [headLoop, if_neg h10, ih (cnt + 1) (lines ++ [t]) (by omega)]
      have harith : 11 - cnt = (11 - (cnt + 1)) + 1 := by omega
      rw [harith, List.append_assoc]
      simp [List.take_succ_cons]

lemma segsAux_no_nl (cs : Str) : ∀ acc : Str, '\n' ∉ acc →
    ∀ s ∈ segsAux acc cs, '\n' ∉ s := by
  induction cs with
  | nil =>
    intro acc hacc s hs
    rw [segsAux] at hs
    by_cases h : acc = []
    · simp [h] at hs
    · rw [if_neg h] at hs
      rw [List.mem_singleton.mp hs]
      simpa using hacc
  | cons c cs ih =>
    intro acc hacc s hs
    by_cases hc : c = '\n'
    · rw [segsAux, if_pos hc] at hs
      rcases List.mem_cons.mp hs with rfl | hs'
      · simpa using hacc
      · exact ih [] (by simp) s hs'
    · rw [segsAux, if_neg hc] at hs
      refine ih (c :: acc) ?_ s hs
      simp only [List.mem_cons]
      rintro (h | h)
      · exact hc h.symm
      · exact hacc h

lemma segs_no_nl (content : Str) : ∀ s ∈ segs content, '\n' ∉ s :=
  segsAux_no_nl content [] (by simp)

lemma dropCR_subset (s : Str) : ∀ a ∈ dropCR s, a ∈ s := by
  intro a ha
  unfold dropCR at ha
  split at ha
  · split at ha
    · exact List.dropLast_subset s ha
    · exact ha
  · exact ha

lemma takeWhile_all_eq {p : Str → Bool} (l : List Str)
    (h : ∀ x ∈ l, p x = true) : l.takeWhile p = l := by
  induction l with
  | nil => rfl
  | cons x xs ih =>
    rw [List.takeWhile_cons, h x (List.mem_cons_self x xs)]
    simp [ih fun y hy => h y (List.mem_cons_of_mem x hy)]

/-- Claim C8: for every readable local file, `getFileHead` succeeds with a
fingerprint of at most 11 lines that is an initial run of the file's line
sequence (in file order, newline terminators stripped — no line contains
a newline), and on a file of at least 11 scannable lines the loop stops
after the 11th: the fingerprint is exactly the first 11 lines. -/
theorem getFileHead_at_most_eleven_lines (content : Str) :
    ∃ fp rest, getFileHead (Except.ok content) = Except.ok fp ∧
      fp.length ≤ 11 ∧
      (segs content).map dropCR = fp ++ rest ∧
      (∀ l ∈ fp, '\n' ∉ l) ∧
      ((∀ s ∈ segs content, s.length < MaxScanTokenSize) →
        fp = ((segs content).map dropCR).take 11) := by
  refine ⟨(scanTokens MaxScanTokenSize content).take 11,
    (scanTokens MaxScanTokenSize content).drop 11
      ++ ((segs content).dropWhile
          (fun s => decide (s.length < MaxScanTokenSize))).map dropCR,
    ?_, ?_, ?_, ?_, ?_⟩
  · rw [getFileHead, headLoop_take _ 0 [] (by omega)]
    rfl
  · simp [List.length_take]
  · rw [← List.append_assoc, List.take_append_drop, scanTokens,
      ← List.map_append, List.takeWhile_append_dropWhile]
  · intro l hl
    have hl1 : l ∈ scanTokens MaxScanTokenSize content :=
      List.take_subset 11 _ hl
    rw [scanTokens] at hl1
    obtain ⟨s, hs, rfl⟩ := List.mem_map.mp hl1
    have hs2 : s ∈ segs content := by
      have hsplit := List.takeWhile_append_dropWhile
        (fun s => decide (s.length < MaxScanTokenSize)) (segs content)
      rw [← hsplit]
      exact List.mem_append_left _ hs
    intro hmem
    exact segs_no_nl content s hs2 (dropCR_subset s '\n' hmem)
  · intro hall
    rw [scanTokens, takeWhile_all_eq (segs content)
      fun x hx => by simpa using hall x hx]

theorem getFileHead_at_most_eleven_lines_witness :
    (∃ fp rest, getFileHead (Except.ok ['a', '\n', 'b']) = Except.ok fp ∧
      fp.length ≤ 11 ∧
      (segs ['a', '\n', 'b']).map dropCR = fp ++ rest ∧
      (∀ l ∈ fp, '\n' ∉ l) ∧
      ((∀ s ∈ segs ['a', '\n', 'b'], s.length < MaxScanTokenSize) →
        fp = ((segs ['a', '\n', 'b']).map dropCR).take 11)) ∧
    getFileHead (Except.ok ['a', '\n', 'b']) = Except.ok [['a'], ['b']] :=
  ⟨getFileHead_at_most_eleven_lines ['a', '\n', 'b'], rfl⟩

lemma segsAux_no_nl_eq (cs : Str) : ∀ acc : Str, (∀ c ∈ cs, c ≠ '\n') →
    segsAux acc cs
      = if acc.reverse ++ cs = [] then [] else [acc.reverse ++ cs] := by
  induction cs with
  | nil =>
    intro acc _
    rw [segsAux]
    simp
  | cons c cs ih =>
    intro acc h
    have hc : c ≠ '\n' := h c (List.mem_cons_self c cs)
    rw [segsAux, if_neg hc, ih (c :: acc) fun y hy => h y (List.mem_cons_of_mem c hy)]
    simp

lemma getFileHead_overlong_silent (content : Str) (hnl : '\n' ∉ content)
    (hlen : MaxScanTokenSize ≤ content.length) :
    getFileHead (Except.ok content) = Except.ok [] := by
  have hcne : content ≠ [] := by
    intro h
    rw [h] at hlen
    simp [MaxScanTokenSize] at hlen
  have hsegs : segs content = [content] := by
    rw [segs, segsAux_no_nl_eq content [] fun c hc => by
      rintro rfl; exact hnl hc]
    simp [hcne]
  rw [getFileHead, scanTokens, hsegs, List.takeWhile_cons]
  have hfail : decide (content.length < MaxScanTokenSize) = false := by
    simp
    omega
  rw [hfail]
  rfl

/-- Claim C9 counterexample: a file whose single line has 65537
characters (one more than the 64 KiB buffer cap, no newline anywhere)
makes `getFileHead` return `Except.ok []` — an empty fingerprint with a
nil error, a silent success — rather than the `FileUnreadable` error the
claim requires: the code never inspects `scanner.Err()` after the scan
loop. -/
theorem overlong_line_silently_truncated_cex :
    getFileHead (Except.ok (List.replicate 65537 'a')) = Except.ok [] ∧
    MaxScanTokenSize < (List.replicate 65537 'a').length ∧
    '\n' ∉ List.replicate 65537 'a' :=
  ⟨getFileHead_overlong_silent (List.replicate 65537 'a')
      (fun h => absurd (List.mem_replicate.mp h).2 (by decide))
      (by rw [List.length_replicate]; exact Nat.le_of_lt (by decide)),
    by rw [List.length_replicate]; decide,
    fun h => absurd (List.mem_replicate.mp h).2 (by decide)⟩

/-- Claim C9 (amended): a local file consisting of a single line longer
than the 64 KiB per-line buffer cap does not crash `getFileHead`, but
neither is it reported as an error: the scanner stops at the over-long
line and `getFileHead` silently succeeds with the lines read before it —
here none, so `Except.ok []`. -/
theorem overlong_single_line_yields_ok_empty (content : Str)
    (hnl : '\n' ∉ content) (hlen : MaxScanTokenSize < content.length) :
    getFileHead (Except.ok content) = Except.ok [] :=
  getFileHead_overlong_silent content hnl (Nat.le_of_lt hlen)

theorem overlong_single_line_yields_ok_empty_witness :
    getFileHead (Except.ok (List.replicate 65537 'b')) = Except.ok [] :=
  overlong_single_line_yields_ok_empty (List.replicate 65537 'b')
    (fun h => absurd (List.mem_replicate.mp h).2 (by decide))
    (by rw [List.length_replicate]; decide)
